import Mathlib

/-!
Verification development for the sausagewiki article versioning and
slug-resolution engine (`src/state.rs`) and its request dispatcher
(`src/wiki_lookup.rs`).

The SQLite store is shallowly embedded: the `article_revisions` table is a
`List Revision` (rows in insertion order), and `sequence_number` — an
autoincrementing rowid in the schema — is assigned as the current row count at
insertion time.  Machine integers (`i32`) are modelled as `Int`; the revision
counters and sequence numbers reached by the modelled operations stay far below
2^31, so wrap-around is not modelled.  Fallible operations return `Except`.
The `created` timestamp column (set by the database clock, an external
collaborator) carries no information used by any operation and is omitted.
-/

namespace Sausagewiki

/-- A row of the `article_revisions` table (see `models` / `schema` usage in
`src/state.rs`). -/
structure Revision where
  sequence_number : Nat
  article_id : Int
  revision : Int
  slug : String
  title : String
  body : String
  author : Option String
  latest : Bool
deriving Repr, DecidableEq

/-- The durable state: the `article_revisions` table plus the `articles`
identity table, which holds no data beyond the id allocator (SQLite rowid),
modelled as the next fresh id. -/
structure Store where
  revisions : List Revision
  next_article_id : Int
deriving Repr, DecidableEq

/-- The empty database; SQLite rowids start at 1. -/
def store0 : Store := ⟨[], 1⟩

/-- Failure outcomes of the store operations in `src/state.rs`.
`validationError` models `Err("title cannot be empty")`;
`panicUnimplemented` models the `unimplemented!("TODO Missing handling of
revision conflicts")` panic at state.rs:199 — the transaction aborts with no
writes, so the caller observes a failure and an unchanged store;
`notFound` models a diesel `.first(...)` without `.optional()` finding no row. -/
inductive StateError where
  | validationError
  | panicUnimplemented
  | notFound
deriving Repr, DecidableEq

/-- Model of `state::SlugLookup` (state.rs:21). -/
inductive SlugLookup where
  | Miss
  | Hit (article_id : Int) (revision : Int)
  | Redirect (slug : String)
deriving Repr, DecidableEq

/-! ## The `slug` crate

`::slug::slugify` (used at state.rs:43 and wiki_lookup.rs:113) keeps ASCII
alphanumerics (lowercasing `A`-`Z` by byte arithmetic), collapses every other
run of characters into a single `-`, suppresses a leading `-`, and pops a
trailing `-`.  Non-ASCII characters go through the external `deunicode`
transliteration table; that table is modelled as returning no transliteration
(the crate's `"-"` default), which is immaterial to every claim proved here. -/

/-- Character loop of `slug::slugify`; the boolean is `prev_is_dash`,
initially true so that no leading dash is emitted. -/
def slugifyCore : List Char → Bool → List Char
  | [], _ => []
  | c :: rest, prevDash =>
    if ('a' ≤ c && c ≤ 'z') || ('0' ≤ c && c ≤ '9') then
      c :: slugifyCore rest false
    else if 'A' ≤ c && c ≤ 'Z' then
      Char.ofNat (c.toNat - 65 + 97) :: slugifyCore rest false
    else if prevDash then
      slugifyCore rest true
    else
      '-' :: slugifyCore rest true

/-- Model of `slug::slugify`: run the character loop, then pop a trailing dash. -/
def slugify (title : String) : String :=
  let cs := slugifyCore title.data true
  String.mk (if cs.getLast? = some '-' then cs.dropLast else cs)

/-! ## Decimal rendering

`format!("{}-{}", base_slug, disambiguator)` renders the disambiguator in
decimal; `natDigits` is that decimal rendering. -/

/-- The decimal digit character for `n < 10`. -/
def digitChar (n : Nat) : Char := Char.ofNat (48 + n)

/-- Big-endian decimal digits, with structural fuel so that the definition
computes by kernel reduction; `n` itself is always enough fuel. -/
def natDigitsAux : Nat → Nat → List Char
  | 0, n => [digitChar n]
  | fuel + 1, n =>
    if n < 10 then [digitChar n]
    else natDigitsAux fuel (n / 10) ++ [digitChar (n % 10)]

/-- Big-endian decimal digits of `n`. -/
def natDigits (n : Nat) : List Char := natDigitsAux n n

/-- Decimal rendering of a natural number, as produced by `format!("{}", n)`. -/
def natRepr (n : Nat) : String := String.mk (natDigits n)

/-- The `k`-th candidate slug tried by the `decide_slug` loop
(state.rs:64-81): the base slug itself first, then `base-2`, `base-3`, …. -/
def candidate (base : String) (k : Nat) : String :=
  if k = 1 then base else base ++ "-" ++ natRepr k

/-- The in-use check of the `decide_slug` loop (state.rs:68-73): is `slug`
held by a *latest* revision of an article other than `aid`?  The source counts
matching rows and compares with 0; `List.any` is that test. -/
def slugInUse (revs : List Revision) (aid : Int) (slug : String) : Bool :=
  revs.any (fun r => r.article_id != aid && r.slug == slug && r.latest)

/-- The disambiguation loop of `decide_slug` (state.rs:67-81), with explicit
fuel.  `slugLoop_spec` below shows the loop returns the first free candidate,
and `exists_free_candidate` shows the fuel `revs.length + 2` used by
`slugFresh` is never exhausted. -/
def slugLoop (revs : List Revision) (aid : Int) (base : String) :
    Nat → Nat → String
  | 0, k => candidate base k
  | fuel + 1, k =>
    if slugInUse revs aid (candidate base k) then
      slugLoop revs aid base fuel (k + 1)
    else
      candidate base k

/-- The tail of `decide_slug` after the early returns (state.rs:60-81):
substitute the literal `"article"` for an empty base slug, then run the
disambiguation loop starting at the base slug. -/
def slugFresh (revs : List Revision) (aid : Int) (baseSlug : String) : String :=
  let base := if baseSlug = "" then "article" else baseSlug
  slugLoop revs aid base (revs.length + 2) 1

/-- Model of `state::decide_slug` (state.rs:42-82).  The source reads the database
inside the loop; here the table contents `revs` are passed in.  Database
errors are the only failures of the original, so the model is total. -/
def decide_slug (revs : List Revision) (article_id : Int)
    (prev_title title : String) (prev_slug : Option String) : String :=
  let base_slug := slugify title
  match prev_slug with
  | some ps =>
    if ps = "" then ""
    else if title = prev_title then ps
    else if base_slug = ps then base_slug
    else slugFresh revs article_id base_slug
  | none => slugFresh revs article_id base_slug

/-! ## Store operations -/

/-- The rows of one article, in insertion order. -/
def articleRows (revs : List Revision) (aid : Int) : List Revision :=
  revs.filter (fun r => r.article_id == aid)

/-- One step of the maximum selection: keep the incumbent unless the new row
is strictly greater. -/
def maxStep (f : Revision → Int) (acc : Option Revision) (r : Revision) :
    Option Revision :=
  match acc with
  | none => some r
  | some m => if f m < f r then some r else some m

/-- Model of `ORDER BY key DESC` + `.first(...)`: the first row attaining the maximum
of `f`.  Rows compared here never tie in the reachable states. -/
def firstMaxBy (f : Revision → Int) (l : List Revision) : Option Revision :=
  l.foldl (maxStep f) none

/-- The read at the top of `update_article` (state.rs:186-194): the row of
`aid` with the greatest revision number. -/
def maxRevRow (revs : List Revision) (aid : Int) : Option Revision :=
  firstMaxBy (fun r => r.revision) (articleRows revs aid)

/-- Model of `SyncState::create_article` (state.rs:233-279).  The fresh article id is
the store's id allocator (`LAST_INSERT_ROWID()` after inserting into
`articles`); the final re-read of the inserted row is the `find?`. -/
def create_article (s : Store) (target_slug : Option String)
    (title body : String) (author : Option String) :
    Except StateError (Store × Revision) :=
  if title = "" then .error .validationError
  else
    let article_id := s.next_article_id
    let slug := decide_slug s.revisions article_id "" title target_slug
    let newRev : Revision :=
      { sequence_number := s.revisions.length, article_id := article_id,
        revision := 1, slug := slug, title := title, body := body,
        author := author, latest := true }
    let revs' := s.revisions ++ [newRev]
    match revs'.find? (fun r => r.article_id == article_id && r.revision == 1) with
    | some r => .ok ({ revisions := revs', next_article_id := s.next_article_id + 1 }, r)
    | none => .error .notFound

/-- The `UPDATE … SET latest = false` of `update_article` (state.rs:205-211),
applied row-wise. -/
def flipLatest (aid base : Int) (r : Revision) : Revision :=
  if r.article_id == aid && r.revision == base then { r with latest := false } else r

/-- Model of `SyncState::update_article` (state.rs:176-231).  A stale `base_revision`
hits `unimplemented!` (state.rs:199), modelled as the `panicUnimplemented`
failure; an article with no revisions makes the initial `.first(...)` fail
(`notFound`). -/
def update_article (s : Store) (article_id base_revision : Int)
    (title body : String) (author : Option String) :
    Except StateError (Store × Revision) :=
  if title = "" then .error .validationError
  else
    match maxRevRow s.revisions article_id with
    | none => .error .notFound
    | some m =>
      if m.revision != base_revision then .error .panicUnimplemented
      else
        let new_revision := base_revision + 1
        let slug := decide_slug s.revisions article_id m.title title (some m.slug)
        let newRev : Revision :=
          { sequence_number := s.revisions.length, article_id := article_id,
            revision := new_revision, slug := slug, title := title,
            body := body, author := author, latest := true }
        let revs' := s.revisions.map (flipLatest article_id base_revision) ++ [newRev]
        match revs'.find? (fun r => r.article_id == article_id && r.revision == new_revision) with
        | some r => .ok ({ s with revisions := revs' }, r)
        | none => .error .notFound

/-- Model of `SyncState::lookup_slug` (state.rs:138-174): take the row holding `slug`
with the greatest `sequence_number`; none ⇒ `Miss`; a latest row ⇒ `Hit`;
otherwise read the same article's latest slug (a plain `.first` — its absence
would be a database error) and `Redirect` to it. -/
def lookup_slug (revs : List Revision) (slug : String) :
    Except StateError SlugLookup :=
  match firstMaxBy (fun r => (r.sequence_number : Int))
      (revs.filter (fun r => r.slug == slug)) with
  | none => .ok .Miss
  | some stub =>
    if stub.latest then .ok (.Hit stub.article_id stub.revision)
    else
      match revs.find? (fun r => r.latest && r.article_id == stub.article_id) with
      | some l => .ok (.Redirect l.slug)
      | none => .error .notFound

/-! ## Search query construction

`SyncState::search_query` (state.rs:281-315) builds an FTS match expression
and hands it to the external full-text index; only the construction of the
expression is modelled. -/

/-- Worker for `splitWhitespace`: `cur` is the current token, reversed. -/
def splitWhitespaceCore : List Char → List Char → List String
  | [], cur => if cur.isEmpty then [] else [String.mk cur.reverse]
  | c :: rest, cur =>
    if c.isWhitespace then
      if cur.isEmpty then splitWhitespaceCore rest []
      else String.mk cur.reverse :: splitWhitespaceCore rest []
    else splitWhitespaceCore rest (c :: cur)

/-- Rust `str::split_whitespace`: maximal runs of non-whitespace characters,
in order; no empty tokens.  (Rust splits on Unicode `White_Space`; Lean's
`Char.isWhitespace` covers space, tab, CR and LF — the difference touches no
claim.) -/
def splitWhitespace (s : String) : List String :=
  splitWhitespaceCore s.data []

/-- Model of `src.replace('\x22', "\x22\x22")`: double every quote character. -/
def replaceQuote : List Char → List Char
  | [] => []
  | c :: rest =>
    if c = '"' then '"' :: '"' :: replaceQuote rest else c :: replaceQuote rest

/-- Model of `fts_quote` (state.rs:285-287): wrap in double quotes, doubling embedded
quotes. -/
def fts_quote (src : String) : String :=
  String.mk ('"' :: (replaceQuote src.data ++ ['"']))

/-- The match-expression construction of `search_query` (state.rs:289-300). -/
def search_query_string (query_string : String) : String :=
  let words := (splitWhitespace query_string).map fts_quote
  if words.length > 1 then
    "NEAR(" ++ String.intercalate " " words ++ ")"
  else
    match words with
    | [w] => w ++ "*"
    | _ => "\"\""

/-! ## Path dispatcher (`src/wiki_lookup.rs`)

Path segments are decoded by `percent_encoding::percent_decode` followed by
`decode_utf8`.  Both external crates are modelled at the byte level:
percent-decoding is lenient (a `%` not followed by two hex digits is passed
through verbatim and never fails), and only the UTF-8 validation of the
decoded bytes can fail. -/

/-- UTF-8 encoding of one scalar value (bytes as `Nat < 256`). -/
def utf8EncodeChar (n : Nat) : List Nat :=
  if n < 128 then [n]
  else if n < 2048 then [192 + n / 64, 128 + n % 64]
  else if n < 65536 then [224 + n / 4096, 128 + (n / 64) % 64, 128 + n % 64]
  else [240 + n / 262144, 128 + (n / 4096) % 64, 128 + (n / 64) % 64, 128 + n % 64]

/-- The UTF-8 bytes of a string (`str::as_bytes`). -/
def utf8Encode (cs : List Char) : List Nat :=
  cs.flatMap (fun c => utf8EncodeChar c.toNat)

/-- Is byte `n` an ASCII hex digit? -/
def isHexDigit (n : Nat) : Bool :=
  (48 ≤ n && n ≤ 57) || (65 ≤ n && n ≤ 70) || (97 ≤ n && n ≤ 102)

/-- Value of an ASCII hex digit byte. -/
def hexVal (n : Nat) : Nat :=
  if n ≤ 57 then n - 48 else if n ≤ 70 then n - 55 else n - 87

/-- Model of `percent_encoding::percent_decode`: byte 37 (`%`) followed by two hex
digits decodes to one byte; otherwise the `%` is emitted verbatim and
decoding resumes at the following byte.  Never fails. -/
def percentDecode : List Nat → List Nat
  | [] => []
  | 37 :: a :: b :: rest =>
    if isHexDigit a && isHexDigit b then
      (16 * hexVal a + hexVal b) :: percentDecode rest
    else
      37 :: percentDecode (a :: b :: rest)
  | c :: rest => c :: percentDecode rest

/-- Is byte `n` a UTF-8 continuation byte? -/
def isCont (n : Nat) : Bool := 128 ≤ n && n ≤ 191

/-- Strict UTF-8 validation and decoding of a byte sequence, as done by
Rust's `str::from_utf8` (rejecting overlong forms, surrogates and values
above 0x10FFFF). -/
def utf8Decode : List Nat → Option (List Char)
  | [] => some []
  | b :: rest =>
    if b < 128 then
      (utf8Decode rest).map (fun cs => Char.ofNat b :: cs)
    else if b < 194 then none
    else if b < 224 then
      match rest with
      | c1 :: rest' =>
        if isCont c1 then
          (utf8Decode rest').map (fun cs => Char.ofNat ((b - 192) * 64 + (c1 - 128)) :: cs)
        else none
      | _ => none
    else if b < 240 then
      match rest with
      | c1 :: c2 :: rest' =>
        if (if b = 224 then 160 ≤ c1 && c1 ≤ 191
            else if b = 237 then 128 ≤ c1 && c1 ≤ 159
            else isCont c1) && isCont c2 then
          (utf8Decode rest').map
            (fun cs => Char.ofNat ((b - 224) * 4096 + (c1 - 128) * 64 + (c2 - 128)) :: cs)
        else none
      | _ => none
    else if b < 245 then
      match rest with
      | c1 :: c2 :: c3 :: rest' =>
        if (if b = 240 then 144 ≤ c1 && c1 ≤ 191
            else if b = 244 then 128 ≤ c1 && c1 ≤ 143
            else isCont c1) && isCont c2 && isCont c3 then
          (utf8Decode rest').map
            (fun cs => Char.ofNat ((b - 240) * 262144 + (c1 - 128) * 4096 + (c2 - 128) * 64 + (c3 - 128)) :: cs)
        else none
      | _ => none
    else none

/-- Model of `percent_decode(seg.as_bytes()).decode_utf8()`: `none` is the `Utf8Error`
case. -/
def percentDecodeUtf8 (s : String) : Option String :=
  (utf8Decode (percentDecode (utf8Encode s.data))).map String.mk

/-- Model of `path.splitn(2, '/')`: the part before the first `/`, and the rest (if a
`/` is present). -/
def splitRaw (path : String) : String × Option String :=
  let cs := path.data
  let head := cs.takeWhile (fun c => c ≠ '/')
  if head.length = cs.length then (String.mk head, none)
  else (String.mk head, some (String.mk (cs.drop (head.length + 1))))

/-- Model of `split_one` (wiki_lookup.rs:46-53): split off the first segment and
percent-decode it; `.error ()` is the `Utf8Error` failure. -/
def splitOne (path : String) : Except Unit (String × Option String) :=
  match percentDecodeUtf8 (splitRaw path).1 with
  | some head => .ok (head, (splitRaw path).2)
  | none => .error ()

/-- Modelled from the spec: pagination parameters are "parsed from an opaque
query string by an external parser" (`resources::pagination`, not among the
analyzed sources); the parse is modelled as opaque and always successful.  No
claim depends on it. -/
structure Pagination where
  raw : String
deriving Repr, DecidableEq

/-- Modelled from the spec: the external pagination parser. -/
def paginationFromStr (q : String) : Pagination := ⟨q⟩

/-- Modelled from the spec: asset checksums are "computed by an external
build step" (`static_resource_derive`); the core treats them as fixed opaque
strings.  No claim depends on their values. -/
def styleCssChecksum : String := "stylechecksum"

/-- Modelled from the spec: see `styleCssChecksum`. -/
def scriptJsChecksum : String := "scriptchecksum"

/-- The resource handlers selectable by the dispatcher (wiki_lookup.rs). -/
inductive Resource where
  | styleCss
  | scriptJs
  | amaticFont
  | changes (p : Pagination)
  | newArticle (slug : Option String)
  | sitemap
  | article (article_id revision : Int) (edit : Bool)
  | articleRedirect (slug : String)
deriving Repr, DecidableEq

/-- Request-level failures of the dispatcher: `decodeError` is the
`Utf8Error` from `split_one`; `storeError` is a failure propagated from the
article store. -/
inductive LookupErr where
  | decodeError
  | storeError (e : StateError)
deriving Repr, DecidableEq

/-- Model of `ASSETS_MAP` (wiki_lookup.rs:18-39): content-addressed filenames built
once at process start. -/
def assetsMap : List (String × Resource) :=
  [ ("style-" ++ styleCssChecksum ++ ".css", .styleCss),
    ("script-" ++ scriptJsChecksum ++ ".js", .scriptJs),
    ("amatic-sc-v9-latin-regular.woff", .amaticFont) ]

/-- Model of `asset_lookup` (wiki_lookup.rs:55-69). -/
def assetLookup (path : String) : Except LookupErr (Option Resource) :=
  match splitOne path with
  | .error _ => .error .decodeError
  | .ok (_, some _) => .ok none
  | .ok (head, none) =>
    match assetsMap.find? (fun kv => kv.1 == head) with
    | some kv => .ok (some kv.2)
    | none => .ok none

/-- Model of `WikiLookup::reserved_lookup` (wiki_lookup.rs:76-99). -/
def reservedLookup (_s : Store) (path : String) (query : Option String) :
    Except LookupErr (Option Resource) :=
  match splitOne path with
  | .error _ => .error .decodeError
  | .ok (head, tail) =>
    match head, tail with
    | "_assets", some asset => assetLookup asset
    | "_changes", none => .ok (some (.changes (paginationFromStr (query.getD ""))))
    | "_new", none => .ok (some (.newArticle none))
    | "_sitemap", none => .ok (some .sitemap)
    | _, _ => .ok none

/-- Model of `WikiLookup::article_lookup` (wiki_lookup.rs:101-135). -/
def articleLookup (s : Store) (path : String) (query : Option String) :
    Except LookupErr (Option Resource) :=
  match splitOne path with
  | .error _ => .error .decodeError
  | .ok (_, some _) => .ok none
  | .ok (slug, none) =>
    let slugified := slugify slug
    if slugified ≠ slug then .ok (some (.articleRedirect slugified))
    else
      let edit := query == some "edit"
      match lookup_slug s.revisions slug with
      | .error e => .error (.storeError e)
      | .ok .Miss => .ok (some (.newArticle (some slug)))
      | .ok (.Hit aid rev) => .ok (some (.article aid rev edit))
      | .ok (.Redirect sl) => .ok (some (.articleRedirect sl))

/-- Outcome of `WikiLookup::lookup`: either the `assert!(path.starts_with("/"))`
at wiki_lookup.rs:144 panics, or a result is returned. -/
inductive LookupOutcome where
  | panicked
  | returned (r : Except LookupErr (Option Resource))
deriving Repr

/-- Model of `str::starts_with`, namely a prefix test on the character sequence. -/
def strStartsWith (s pre : String) : Bool :=
  pre.data.isPrefixOf s.data

/-- Model of `WikiLookup::lookup` (wiki_lookup.rs:143-152). -/
def wikiLookup (s : Store) (path : String) (query : Option String) :
    LookupOutcome :=
  if strStartsWith path "/" then
    let rest := path.drop 1
    if strStartsWith rest "_" then .returned (reservedLookup s rest query)
    else .returned (articleLookup s rest query)
  else .panicked

/-! ## Reachable stores -/

/-- Stores reachable from the empty database by successful `create_article`
and `update_article` calls. -/
inductive Reachable : Store → Prop where
  | empty : Reachable store0
  | create {s s' : Store} {r : Revision} {ts : Option String}
      {t b : String} {a : Option String} :
      Reachable s → create_article s ts t b a = .ok (s', r) → Reachable s'
  | update {s s' : Store} {r : Revision} {aid base : Int}
      {t b : String} {a : Option String} :
      Reachable s → update_article s aid base t b a = .ok (s', r) → Reachable s'

/-- Stores reachable as in `Reachable`, except that no `create_article` call
passes a non-empty `target_slug` equal to the slugification of its title
(such a call skips the disambiguation check, see `decide_slug`'s
`base_slug == prev_slug` early return at state.rs:55-57). -/
inductive ReachableGuarded : Store → Prop where
  | empty : ReachableGuarded store0
  | create {s s' : Store} {r : Revision} {ts : Option String}
      {t b : String} {a : Option String} :
      ReachableGuarded s →
      (∀ t', ts = some t' → t' ≠ "" → t' ≠ slugify t) →
      create_article s ts t b a = .ok (s', r) → ReachableGuarded s'
  | update {s s' : Store} {r : Revision} {aid base : Int}
      {t b : String} {a : Option String} :
      ReachableGuarded s → update_article s aid base t b a = .ok (s', r) →
      ReachableGuarded s'

/-! ## Lemmas: decimal rendering is injective -/

theorem digitChar_toNat {n : Nat} (h : n < 10) : (digitChar n).toNat = 48 + n := by
  interval_cases n <;> decide

/-- Value of a digit string, inverse of `natDigits`. -/
def digitsVal (l : List Char) : Nat :=
  l.foldl (fun acc c => 10 * acc + (c.toNat - 48)) 0

theorem digitsVal_concat (l : List Char) (c : Char) :
    digitsVal (l ++ [c]) = 10 * digitsVal l + (c.toNat - 48) := by
  simp [digitsVal, List.foldl_append]

theorem digitsVal_natDigitsAux :
    ∀ (fuel n : Nat), n ≤ fuel → digitsVal (natDigitsAux fuel n) = n := by
  intro fuel
  induction fuel with
  | zero =>
    intro n h
    have hn : n = 0 := by omega
    subst hn
    rfl
  | succ fuel ih =>
    intro n h
    rw [natDigitsAux]
    split
    · next h10 =>
      simp [digitsVal, digitChar_toNat h10]
    · next h10 =>
      rw [digitsVal_concat]
      have hdiv : n / 10 < n := Nat.div_lt_self (by omega) (by omega)
      rw [ih (n / 10) (by omega), digitChar_toNat (Nat.mod_lt n (by omega))]
      omega

theorem digitsVal_natDigits (n : Nat) : digitsVal (natDigits n) = n :=
  digitsVal_natDigitsAux n n (le_refl n)

theorem natDigits_inj {m n : Nat} (h : natDigits m = natDigits n) : m = n := by
  have hm := digitsVal_natDigits m
  rw [h, digitsVal_natDigits] at hm
  omega

theorem natRepr_inj {m n : Nat} (h : natRepr m = natRepr n) : m = n :=
  natDigits_inj (congrArg String.data h)

theorem natDigits_ne_nil (n : Nat) : natDigits n ≠ [] := by
  rw [natDigits]
  cases n with
  | zero => simp [natDigitsAux]
  | succ k =>
    rw [natDigitsAux]
    split <;> simp

theorem natRepr_length_pos (n : Nat) : 0 < (natRepr n).length := by
  have h := natDigits_ne_nil n
  have : (natRepr n).length = (natDigits n).length := rfl
  rw [this]
  exact List.length_pos.mpr h

/-! ## Lemmas: candidate slugs -/

theorem candidate_one (base : String) : candidate base 1 = base := by
  simp [candidate]

theorem candidate_inj {base : String} {j k : Nat}
    (h : candidate base j = candidate base k) : j = k := by
  by_cases hj1 : j = 1 <;> by_cases hk1 : k = 1
  · omega
  · exfalso
    have hlen := congrArg String.length h
    simp only [candidate, if_pos hj1, if_neg hk1, String.length_append] at hlen
    have := natRepr_length_pos k
    omega
  · exfalso
    have hlen := congrArg String.length h
    simp only [candidate, if_neg hj1, if_pos hk1, String.length_append] at hlen
    have := natRepr_length_pos j
    omega
  · have hd := congrArg String.data h
    simp only [candidate, if_neg hj1, if_neg hk1] at hd
    have hd' : base.data ++ ("-".data ++ (natRepr j).data) =
        base.data ++ ("-".data ++ (natRepr k).data) := by
      simpa [List.append_assoc] using hd
    have h2 := List.append_cancel_left hd'
    have h3 := List.append_cancel_left h2
    exact natRepr_inj (String.ext h3)

theorem length_pos_of_ne_empty {s : String} (h : s ≠ "") : 0 < s.length := by
  cases s with
  | mk data =>
    cases data with
    | nil => exact absurd rfl h
    | cons c cs => simp [String.length]

theorem candidate_ne_empty {base : String} (h : base ≠ "") (k : Nat) :
    candidate base k ≠ "" := by
  intro hc
  have hlen := congrArg String.length hc
  by_cases hk : k = 1
  · rw [hk, candidate_one] at hc
    exact h hc
  · simp only [candidate, if_neg hk, String.length_append] at hlen
    have := length_pos_of_ne_empty h
    have : ("" : String).length = 0 := rfl
    omega

/-! ## Lemmas: the maximum-row selection -/

theorem firstMaxBy_go (f : Revision → Int) :
    ∀ (l : List Revision) (a : Revision),
      ∃ m, l.foldl (maxStep f) (some a) = some m ∧ (m = a ∨ m ∈ l) ∧
        f a ≤ f m ∧ ∀ r ∈ l, f r ≤ f m := by
  intro l
  induction l with
  | nil => exact fun a => ⟨a, rfl, Or.inl rfl, le_refl _, by simp⟩
  | cons r l ih =>
    intro a
    show ∃ m, l.foldl (maxStep f) (maxStep f (some a) r) = some m ∧ _
    rw [maxStep]
    by_cases hlt : f a < f r
    · rw [if_pos hlt]
      obtain ⟨m, hm, hmem, hle, hall⟩ := ih r
      refine ⟨m, hm, ?_, le_of_lt (lt_of_lt_of_le hlt hle), ?_⟩
      · rcases hmem with h | h
        · exact Or.inr (h ▸ List.mem_cons_self r l)
        · exact Or.inr (List.mem_cons_of_mem r h)
      · intro r' hr'
        rcases List.mem_cons.mp hr' with h | h
        · exact h ▸ hle
        · exact hall r' h
    · rw [if_neg hlt]
      obtain ⟨m, hm, hmem, hle, hall⟩ := ih a
      refine ⟨m, hm, ?_, hle, ?_⟩
      · rcases hmem with h | h
        · exact Or.inl h
        · exact Or.inr (List.mem_cons_of_mem r h)
      · intro r' hr'
        rcases List.mem_cons.mp hr' with h | h
        · exact h ▸ le_trans (le_of_not_lt hlt) hle
        · exact hall r' h

theorem firstMaxBy_spec (f : Revision → Int) (l : List Revision) (hne : l ≠ []) :
    ∃ m, firstMaxBy f l = some m ∧ m ∈ l ∧ ∀ r ∈ l, f r ≤ f m := by
  cases l with
  | nil => exact absurd rfl hne
  | cons r l =>
    obtain ⟨m, hm, hmem, hle, hall⟩ := firstMaxBy_go f l r
    refine ⟨m, hm, ?_, ?_⟩
    · rcases hmem with h | h
      · exact h ▸ List.mem_cons_self r l
      · exact List.mem_cons_of_mem r h
    · intro r' hr'
      rcases List.mem_cons.mp hr' with h | h
      · exact h ▸ hle
      · exact hall r' h

theorem firstMaxBy_eq_none_iff (f : Revision → Int) (l : List Revision) :
    firstMaxBy f l = none ↔ l = [] := by
  constructor
  · intro h
    cases l with
    | nil => rfl
    | cons r l =>
      obtain ⟨m, hm, _⟩ := firstMaxBy_go f l r
      rw [firstMaxBy] at h
      simp only [List.foldl_cons] at h
      have : maxStep f none r = some r := rfl
      rw [this] at h
      rw [hm] at h
      exact absurd h (by simp)
  · intro h; rw [h]; rfl

theorem firstMaxBy_mem {f : Revision → Int} {l : List Revision} {m : Revision}
    (h : firstMaxBy f l = some m) : m ∈ l := by
  have hne : l ≠ [] := by
    intro hl
    rw [hl] at h
    exact absurd h (by simp [firstMaxBy])
  obtain ⟨m', hm', hmem, _⟩ := firstMaxBy_spec f l hne
  rw [h] at hm'
  exact (Option.some_inj.mp hm') ▸ hmem

theorem firstMaxBy_le {f : Revision → Int} {l : List Revision} {m : Revision}
    (h : firstMaxBy f l = some m) : ∀ r ∈ l, f r ≤ f m := by
  have hne : l ≠ [] := by
    intro hl
    rw [hl] at h
    exact absurd h (by simp [firstMaxBy])
  obtain ⟨m', hm', _, hall⟩ := firstMaxBy_spec f l hne
  rw [h] at hm'
  exact (Option.some_inj.mp hm') ▸ hall

/-! ## Lemmas: the disambiguation loop returns the first free candidate -/

theorem slugLoop_spec (revs : List Revision) (aid : Int) (base : String) :
    ∀ (fuel k : Nat),
      (∃ j, k ≤ j ∧ j < k + fuel ∧ slugInUse revs aid (candidate base j) = false) →
      ∃ K, k ≤ K ∧ slugLoop revs aid base fuel k = candidate base K ∧
        slugInUse revs aid (candidate base K) = false ∧
        ∀ j, k ≤ j → j < K → slugInUse revs aid (candidate base j) = true := by
  intro fuel
  induction fuel with
  | zero =>
    rintro k ⟨j, hj1, hj2, -⟩
    omega
  | succ fuel ih =>
    rintro k ⟨j, hj1, hj2, hfree⟩
    rw [slugLoop]
    by_cases hk : slugInUse revs aid (candidate base k) = true
    · rw [if_pos hk]
      have hjk : j ≠ k := by
        intro h
        rw [h, hk] at hfree
        exact absurd hfree (by simp)
      obtain ⟨K, hK1, hK2, hK3, hK4⟩ :=
        ih (k + 1) ⟨j, by omega, by omega, hfree⟩
      refine ⟨K, by omega, hK2, hK3, ?_⟩
      intro j' h1 h2
      by_cases hj' : j' = k
      · exact hj' ▸ hk
      · exact hK4 j' (by omega) h2
    · rw [if_neg hk]
      have hkf : slugInUse revs aid (candidate base k) = false :=
        Bool.not_eq_true _ ▸ hk
      exact ⟨k, le_refl _, rfl, hkf, fun j' h1 h2 => absurd h2 (by omega)⟩

theorem exists_free_candidate (revs : List Revision) (aid : Int) (base : String) :
    ∃ j, 1 ≤ j ∧ j < revs.length + 2 ∧
      slugInUse revs aid (candidate base j) = false := by
  by_contra hcon
  push_neg at hcon
  have huse : ∀ j, 1 ≤ j → j < revs.length + 2 →
      slugInUse revs aid (candidate base j) = true := by
    intro j h1 h2
    cases hc : slugInUse revs aid (candidate base j) with
    | false => exact absurd hc (hcon j h1 h2)
    | true => rfl
  have hnodup : ((List.range' 1 (revs.length + 1)).map (candidate base)).Nodup := by
    refine List.Nodup.map_on ?_ (List.nodup_range' 1 (revs.length + 1))
    intro x _ y _ hxy
    exact candidate_inj hxy
  have hsub : ∀ c ∈ (List.range' 1 (revs.length + 1)).map (candidate base),
      c ∈ revs.map (fun r => r.slug) := by
    intro c hc
    rw [List.mem_map] at hc
    obtain ⟨j, hj, rfl⟩ := hc
    rw [List.mem_range'] at hj
    obtain ⟨i, hi, hji⟩ := hj
    have huse' := huse j (by omega) (by omega)
    rw [slugInUse, List.any_eq_true] at huse'
    obtain ⟨r, hr, hp⟩ := huse'
    simp only [Bool.and_eq_true, beq_iff_eq, bne_iff_ne] at hp
    exact List.mem_map.mpr ⟨r, hr, hp.1.2⟩
  have h1 : ((List.range' 1 (revs.length + 1)).map (candidate base)).toFinset.card
      = revs.length + 1 := by
    rw [List.toFinset_card_of_nodup hnodup]
    simp
  have h2 : ((List.range' 1 (revs.length + 1)).map (candidate base)).toFinset ⊆
      (revs.map (fun r => r.slug)).toFinset := by
    intro c hc
    rw [List.mem_toFinset] at hc ⊢
    exact hsub c hc
  have h3 := Finset.card_le_card h2
  have h4 := List.toFinset_card_le (revs.map (fun r => r.slug))
  rw [List.length_map] at h4
  omega

theorem slugFresh_spec (revs : List Revision) (aid : Int) (baseSlug : String) :
    ∃ K, 1 ≤ K ∧
      slugFresh revs aid baseSlug =
        candidate (if baseSlug = "" then "article" else baseSlug) K ∧
      slugInUse revs aid
        (candidate (if baseSlug = "" then "article" else baseSlug) K) = false ∧
      ∀ j, 1 ≤ j → j < K →
        slugInUse revs aid
          (candidate (if baseSlug = "" then "article" else baseSlug) j) = true := by
  obtain ⟨j, h1, h2, h3⟩ :=
    exists_free_candidate revs aid (if baseSlug = "" then "article" else baseSlug)
  exact slugLoop_spec revs aid _ (revs.length + 2) 1 ⟨j, h1, by omega, h3⟩

theorem slugFresh_ne_empty (revs : List Revision) (aid : Int) (baseSlug : String) :
    slugFresh revs aid baseSlug ≠ "" := by
  obtain ⟨K, _, heq, _, _⟩ := slugFresh_spec revs aid baseSlug
  rw [heq]
  refine candidate_ne_empty ?_ K
  split
  · intro h
    exact absurd (congrArg String.length h) (by decide)
  · next h => exact h

theorem decide_slug_none (revs : List Revision) (aid : Int) (pt t : String) :
    decide_slug revs aid pt t none = slugFresh revs aid (slugify t) := rfl

theorem decide_slug_some (revs : List Revision) (aid : Int) (pt t p : String) :
    decide_slug revs aid pt t (some p) =
      if p = "" then ""
      else if t = pt then p
      else if slugify t = p then slugify t
      else slugFresh revs aid (slugify t) := rfl

theorem decide_slug_ne_empty (revs : List Revision) (aid : Int)
    (prev_title title : String) (ps : Option String) (h : ps ≠ some "") :
    decide_slug revs aid prev_title title ps ≠ "" := by
  cases ps with
  | none =>
    rw [decide_slug_none]
    exact slugFresh_ne_empty revs aid (slugify title)
  | some p =>
    have hp : p ≠ "" := fun hpe => h (hpe ▸ rfl)
    show (if p = "" then "" else if title = prev_title then p
      else if slugify title = p then slugify title
      else slugFresh revs aid (slugify title)) ≠ ""
    rw [if_neg hp]
    split
    · exact hp
    · split
      · next heq => exact heq ▸ hp
      · exact slugFresh_ne_empty revs aid (slugify title)

/-! ## Lemmas: shapes of successful operations -/

/-- The row inserted by a successful `create_article` call. -/
def createdRev (s : Store) (ts : Option String) (t b : String)
    (a : Option String) : Revision :=
  { sequence_number := s.revisions.length, article_id := s.next_article_id,
    revision := 1, slug := decide_slug s.revisions s.next_article_id "" t ts,
    title := t, body := b, author := a, latest := true }

theorem create_article_ok {s s' : Store} {r : Revision} {ts : Option String}
    {t b : String} {a : Option String}
    (h : create_article s ts t b a = .ok (s', r)) :
    t ≠ "" ∧ s'.revisions = s.revisions ++ [createdRev s ts t b a] ∧
      s'.next_article_id = s.next_article_id + 1 := by
  by_cases ht : t = ""
  · rw [create_article, if_pos ht] at h
    exact absurd h (by simp)
  · simp only [create_article, if_neg ht] at h
    split at h
    · rw [Except.ok.injEq, Prod.mk.injEq] at h
      obtain ⟨h1, -⟩ := h
      subst h1
      exact ⟨ht, rfl, rfl⟩
    · exact absurd h (by simp)

/-- The row inserted by a successful `update_article` call, given the
previous maximal row `m`. -/
def updatedRev (s : Store) (aid : Int) (m : Revision) (t b : String)
    (a : Option String) : Revision :=
  { sequence_number := s.revisions.length, article_id := aid,
    revision := m.revision + 1,
    slug := decide_slug s.revisions aid m.title t (some m.slug),
    title := t, body := b, author := a, latest := true }

theorem update_article_ok {s s' : Store} {r : Revision} {aid base : Int}
    {t b : String} {a : Option String}
    (h : update_article s aid base t b a = .ok (s', r)) :
    ∃ m, t ≠ "" ∧ maxRevRow s.revisions aid = some m ∧ m.revision = base ∧
      s'.revisions = s.revisions.map (flipLatest aid base) ++
        [updatedRev s aid m t b a] ∧
      s'.next_article_id = s.next_article_id := by
  by_cases ht : t = ""
  · rw [update_article, if_pos ht] at h
    exact absurd h (by simp)
  · simp only [update_article, if_neg ht] at h
    split at h
    · exact absurd h (by simp)
    · next m hmax =>
      by_cases hbase : m.revision = base
      · rw [if_neg (by simp [hbase])] at h
        split at h
        · rw [Except.ok.injEq, Prod.mk.injEq] at h
          obtain ⟨h1, -⟩ := h
          subst h1
          refine ⟨m, ht, hmax, hbase, ?_, rfl⟩
          show s.revisions.map (flipLatest aid base) ++ _ =
            s.revisions.map (flipLatest aid base) ++ [updatedRev s aid m t b a]
          rw [updatedRev, hbase]
        · exact absurd h (by simp)
      · rw [if_pos (by simp [hbase])] at h
        exact absurd h (by simp)

/-! ## Lemmas: the latest-flag flip -/

theorem flipLatest_article_id (aid base : Int) (r : Revision) :
    (flipLatest aid base r).article_id = r.article_id := by
  rw [flipLatest]; split <;> rfl

theorem flipLatest_revision (aid base : Int) (r : Revision) :
    (flipLatest aid base r).revision = r.revision := by
  rw [flipLatest]; split <;> rfl

theorem flipLatest_sequence_number (aid base : Int) (r : Revision) :
    (flipLatest aid base r).sequence_number = r.sequence_number := by
  rw [flipLatest]; split <;> rfl

theorem flipLatest_slug (aid base : Int) (r : Revision) :
    (flipLatest aid base r).slug = r.slug := by
  rw [flipLatest]; split <;> rfl

theorem flipLatest_of_article_ne {aid base : Int} {r : Revision}
    (h : r.article_id ≠ aid) : flipLatest aid base r = r := by
  rw [flipLatest, if_neg]
  simp [h]

theorem flipLatest_of_revision_ne {aid base : Int} {r : Revision}
    (h : r.revision ≠ base) : flipLatest aid base r = r := by
  rw [flipLatest, if_neg]
  simp [h]

theorem flipLatest_hit {aid base : Int} {r : Revision}
    (h1 : r.article_id = aid) (h2 : r.revision = base) :
    flipLatest aid base r = { r with latest := false } := by
  rw [flipLatest, if_pos]
  simp [h1, h2]

theorem latest_of_flipLatest {aid base : Int} {r : Revision}
    (h : (flipLatest aid base r).latest = true) : r.latest = true := by
  rw [flipLatest] at h
  split at h
  · exact absurd h (by simp)
  · exact h

/-! ## Lemmas: article rows -/

theorem articleRows_append (revs l : List Revision) (aid : Int) :
    articleRows (revs ++ l) aid = articleRows revs aid ++ articleRows l aid := by
  simp [articleRows]

theorem mem_articleRows {r : Revision} {revs : List Revision} {aid : Int}
    (h : r ∈ articleRows revs aid) : r ∈ revs ∧ r.article_id = aid := by
  rw [articleRows, List.mem_filter] at h
  exact ⟨h.1, by simpa using h.2⟩

theorem mem_articleRows_of {r : Revision} {revs : List Revision} {aid : Int}
    (h1 : r ∈ revs) (h2 : r.article_id = aid) : r ∈ articleRows revs aid := by
  rw [articleRows, List.mem_filter]
  exact ⟨h1, by simpa using h2⟩

theorem filter_map_comm (g : Revision → Revision) (p : Revision → Bool)
    (hg : ∀ r, p (g r) = p r) (l : List Revision) :
    (l.map g).filter p = (l.filter p).map g := by
  induction l with
  | nil => rfl
  | cons r l ih =>
    simp only [List.map_cons, List.filter_cons, hg r]
    cases hp : p r with
    | true => simp [ih]
    | false => exact ih

theorem articleRows_map_flip (revs : List Revision) (aid base aid' : Int) :
    articleRows (revs.map (flipLatest aid base)) aid' =
      (articleRows revs aid').map (flipLatest aid base) :=
  filter_map_comm _ _ (fun r => by rw [flipLatest_article_id]) revs

theorem articleRows_singleton (r : Revision) (aid : Int) :
    articleRows [r] aid = if r.article_id = aid then [r] else [] := by
  rw [articleRows]
  by_cases h : r.article_id = aid
  · rw [if_pos h, List.filter_cons, if_pos (by simp [h])]
    rfl
  · rw [if_neg h, List.filter_cons, if_neg (by simp [h])]
    rfl

/-! ## The store invariant -/

/-- Shape of one article's rows: revision numbers are exactly `1..=N` in
insertion order, and the latest flag is set exactly on the last row. -/
def ArticleOk (rows : List Revision) : Prop :=
  rows.map (fun r => r.revision) =
    (List.range' 1 rows.length).map (fun (n : Nat) => (n : Int)) ∧
  (rows = [] ∨
    rows.map (fun r => r.latest) =
      List.replicate (rows.length - 1) false ++ [true])

/-- Invariant of all stores reachable by successful operations: sequence
numbers are the insertion positions, article ids are below the allocator, and
every article's rows have the `ArticleOk` shape. -/
structure Inv (s : Store) : Prop where
  seq : s.revisions.map (fun r => r.sequence_number) =
    List.range s.revisions.length
  ids : ∀ r ∈ s.revisions, r.article_id < s.next_article_id
  articles : ∀ aid, ArticleOk (articleRows s.revisions aid)

theorem ArticleOk.decomp {rows : List Revision} (h : ArticleOk rows)
    (hne : rows ≠ []) :
    ∃ init lastR, rows = init ++ [lastR] ∧
      init.map (fun r => r.revision) =
        (List.range' 1 init.length).map (fun (n : Nat) => (n : Int)) ∧
      init.map (fun r => r.latest) = List.replicate init.length false ∧
      lastR.revision = ((init.length + 1 : Nat) : Int) ∧
      lastR.latest = true := by
  rcases List.eq_nil_or_concat rows with hnil | ⟨init, lastR, heq⟩
  · exact absurd hnil hne
  rw [List.concat_eq_append] at heq
  subst heq
  have hlen : (init ++ [lastR]).length = init.length + 1 := by simp
  obtain ⟨hrev, hlat⟩ := h
  rw [hlen, List.map_append, List.range'_concat, List.map_append] at hrev
  have hrev' := List.append_inj' hrev (by simp)
  rcases hlat with hnil | hlat
  · exact absurd hnil (by simp)
  rw [hlen, List.map_append, Nat.add_sub_cancel] at hlat
  have hlat' := List.append_inj' hlat (by simp)
  refine ⟨init, lastR, rfl, ?_, hlat'.1, ?_, ?_⟩
  · have := hrev'.1
    simpa using this
  · have := hrev'.2
    simp only [List.map_cons, List.map_nil, List.cons.injEq] at this
    rw [this.1]
    omega
  · have := hlat'.2
    simp only [List.map_cons, List.map_nil, List.cons.injEq] at this
    exact this.1

theorem ArticleOk.rev_lt_of_mem_init {init : List Revision} {r : Revision}
    (hinit : init.map (fun r => r.revision) =
      (List.range' 1 init.length).map (fun (n : Nat) => (n : Int)))
    (hr : r ∈ init) : r.revision < ((init.length + 1 : Nat) : Int) := by
  have : r.revision ∈ init.map (fun r => r.revision) :=
    List.mem_map.mpr ⟨r, hr, rfl⟩
  rw [hinit, List.mem_map] at this
  obtain ⟨j, hj, hjr⟩ := this
  rw [List.mem_range'] at hj
  obtain ⟨i, hi, hji⟩ := hj
  omega

theorem range'_cast_concat (len : Nat) :
    (List.range' 1 (len + 1)).map (fun (n : Nat) => (n : Int)) =
      (List.range' 1 len).map (fun (n : Nat) => (n : Int)) ++
        [((len + 1 : Nat) : Int)] := by
  have h : 1 + 1 * len = len + 1 := by omega
  rw [List.range'_concat, List.map_append]
  simp only [List.map_cons, List.map_nil]
  rw [h]

theorem inv_create {s s' : Store} {r : Revision} {ts : Option String}
    {t b : String} {a : Option String} (hInv : Inv s)
    (h : create_article s ts t b a = .ok (s', r)) : Inv s' := by
  obtain ⟨ht, hrevs, hnext⟩ := create_article_ok h
  constructor
  · rw [hrevs, List.map_append, hInv.seq]
    simp [createdRev, List.range_succ]
  · intro r' hr'
    rw [hnext]
    rw [hrevs, List.mem_append] at hr'
    rcases hr' with h1 | h1
    · have := hInv.ids r' h1
      omega
    · have he : r' = createdRev s ts t b a := by simpa using h1
      rw [he]
      show s.next_article_id < s.next_article_id + 1
      omega
  · intro aid
    rw [hrevs, articleRows_append]
    by_cases haid : aid = s.next_article_id
    · subst haid
      have hempty : articleRows s.revisions s.next_article_id = [] := by
        rw [articleRows, List.filter_eq_nil_iff]
        intro r' hr'
        have := hInv.ids r' hr'
        simp only [beq_iff_eq]
        omega
      rw [hempty, List.nil_append, articleRows_singleton,
        if_pos (show (createdRev s ts t b a).article_id = s.next_article_id from rfl)]
      exact ⟨rfl, Or.inr rfl⟩
    · have hsing : articleRows [createdRev s ts t b a] aid = [] := by
        rw [articleRows_singleton, if_neg]
        intro he
        exact haid ((show s.next_article_id = aid from he).symm)
      rw [hsing, List.append_nil]
      exact hInv.articles aid

theorem maxRevRow_facts {revs : List Revision} {aid : Int} {m : Revision}
    (h : maxRevRow revs aid = some m) :
    m ∈ revs ∧ m.article_id = aid ∧
      ∀ r ∈ articleRows revs aid, r.revision ≤ m.revision := by
  rw [maxRevRow] at h
  have h1 := firstMaxBy_mem h
  have h2 := firstMaxBy_le h
  obtain ⟨hm, haid⟩ := mem_articleRows h1
  exact ⟨hm, haid, h2⟩

theorem maxRevRow_is_last {s : Store} {aid : Int} {m : Revision} (hInv : Inv s)
    (h : maxRevRow s.revisions aid = some m) :
    ∃ init, articleRows s.revisions aid = init ++ [m] ∧
      init.map (fun r => r.revision) =
        (List.range' 1 init.length).map (fun (n : Nat) => (n : Int)) ∧
      init.map (fun r => r.latest) = List.replicate init.length false ∧
      m.revision = ((init.length + 1 : Nat) : Int) ∧ m.latest = true := by
  have hmem : m ∈ articleRows s.revisions aid := by
    rw [maxRevRow] at h
    exact firstMaxBy_mem h
  have hne : articleRows s.revisions aid ≠ [] := List.ne_nil_of_mem hmem
  obtain ⟨init, lastR, hdec, hinitrev, hinitlat, hlastrev, hlastlat⟩ :=
    (hInv.articles aid).decomp hne
  have hle : lastR.revision ≤ m.revision := by
    rw [maxRevRow] at h
    exact firstMaxBy_le h lastR (hdec ▸ List.mem_append_right init (by simp))
  have hm_eq : m = lastR := by
    rw [hdec, List.mem_append] at hmem
    rcases hmem with hin | hin
    · exfalso
      have := ArticleOk.rev_lt_of_mem_init hinitrev hin
      omega
    · simpa using hin
  subst hm_eq
  exact ⟨init, hdec, hinitrev, hinitlat, hlastrev, hlastlat⟩

theorem inv_update {s s' : Store} {r : Revision} {aid base : Int}
    {t b : String} {a : Option String} (hInv : Inv s)
    (h : update_article s aid base t b a = .ok (s', r)) : Inv s' := by
  obtain ⟨m, ht, hmax, hbase, hrevs, hnext⟩ := update_article_ok h
  obtain ⟨init, hdec, hinitrev, hinitlat, hmrev, hmlat⟩ :=
    maxRevRow_is_last hInv hmax
  obtain ⟨hmrevs, haid, -⟩ := maxRevRow_facts hmax
  constructor
  · rw [hrevs, List.map_append, List.map_map]
    have hcomp : s.revisions.map
        ((fun r => r.sequence_number) ∘ flipLatest aid base) =
        s.revisions.map (fun r => r.sequence_number) :=
      List.map_congr_left (fun r0 _ => flipLatest_sequence_number aid base r0)
    rw [hcomp, hInv.seq]
    simp [updatedRev, List.range_succ]
  · intro r' hr'
    rw [hnext]
    rw [hrevs, List.mem_append] at hr'
    rcases hr' with h1 | h1
    · rw [List.mem_map] at h1
      obtain ⟨r0, hr0, hflip⟩ := h1
      rw [← hflip, flipLatest_article_id]
      exact hInv.ids r0 hr0
    · have he : r' = updatedRev s aid m t b a := by simpa using h1
      rw [he]
      show aid < s.next_article_id
      exact haid ▸ hInv.ids m hmrevs
  · intro aid'
    rw [hrevs, articleRows_append, articleRows_map_flip]
    by_cases haid' : aid' = aid
    · subst haid'
      rw [hdec, List.map_append]
      have hinitflip : init.map (flipLatest aid' base) = init := by
        have hall : ∀ r0 ∈ init, flipLatest aid' base r0 = r0 := by
          intro r0 hr0
          apply flipLatest_of_revision_ne
          have := ArticleOk.rev_lt_of_mem_init hinitrev hr0
          omega
        have := List.map_congr_left hall
        simpa using this
      have hmflip : [m].map (flipLatest aid' base) =
          [{ m with latest := false }] := by
        simp only [List.map_cons, List.map_nil]
        rw [flipLatest_hit haid (by omega)]
      have hupd : articleRows [updatedRev s aid' m t b a] aid' =
          [updatedRev s aid' m t b a] := by
        rw [articleRows_singleton,
          if_pos (show (updatedRev s aid' m t b a).article_id = aid' from rfl)]
      rw [hinitflip, hmflip, hupd]
      constructor
      · have hlen : ((init ++ [{ m with latest := false }]) ++
            [updatedRev s aid' m t b a]).length = init.length + 1 + 1 := by
          simp
        rw [hlen, range'_cast_concat (init.length + 1),
          range'_cast_concat init.length, List.map_append, List.map_append]
        simp only [List.map_cons, List.map_nil]
        rw [hinitrev]
        have h1 : ({ m with latest := false } : Revision).revision =
            ((init.length + 1 : Nat) : Int) := hmrev
        have h2 : (updatedRev s aid' m t b a).revision =
            ((init.length + 1 + 1 : Nat) : Int) := by
          show m.revision + 1 = _
          omega
        rw [h1, h2]
      · right
        have hlen : ((init ++ [{ m with latest := false }]) ++
            [updatedRev s aid' m t b a]).length = init.length + 2 := by
          simp
        rw [hlen, List.map_append, List.map_append]
        simp only [List.map_cons, List.map_nil, hinitlat]
        have hrep : List.replicate (init.length + 2 - 1) false =
            List.replicate init.length false ++ [false] := by
          have : init.length + 2 - 1 = init.length + 1 := by omega
          rw [this, List.replicate_succ']
        rw [hrep]
        show (List.replicate init.length false ++ [false]) ++ [true] =
          (List.replicate init.length false ++ [false]) ++ [true]
        rfl
    · have hflipid : (articleRows s.revisions aid').map (flipLatest aid base) =
          articleRows s.revisions aid' := by
        have hall : ∀ r0 ∈ articleRows s.revisions aid',
            flipLatest aid base r0 = r0 := by
          intro r0 hr0
          exact flipLatest_of_article_ne
            ((mem_articleRows hr0).2 ▸ haid')
        have := List.map_congr_left hall
        simpa using this
      have hupd : articleRows [updatedRev s aid m t b a] aid' = [] := by
        rw [articleRows_singleton, if_neg]
        intro he
        exact haid' ((show aid = aid' from he).symm)
      rw [hflipid, hupd, List.append_nil]
      exact hInv.articles aid'

/-- Every reachable store satisfies the invariant. -/
theorem reachable_inv {s : Store} (h : Reachable s) : Inv s := by
  induction h with
  | empty =>
    refine ⟨rfl, ?_, ?_⟩
    · intro r hr
      exact absurd hr (by simp [store0])
    · intro aid
      exact ⟨rfl, Or.inl rfl⟩
  | create _ hok ih => exact inv_create ih hok
  | update _ hok ih => exact inv_update ih hok

/-! ## Uniqueness of latest slugs -/

/-- Claim-side property: across all rows, two latest revisions of distinct
articles never share a non-empty slug. -/
def UniqueLatestSlugs (revs : List Revision) : Prop :=
  ∀ r₁, r₁ ∈ revs → ∀ r₂, r₂ ∈ revs → r₁.latest = true → r₂.latest = true →
    r₁.article_id ≠ r₂.article_id → r₁.slug = r₂.slug → r₁.slug = ""

theorem guarded_reachable {s : Store} (h : ReachableGuarded s) : Reachable s := by
  induction h with
  | empty => exact Reachable.empty
  | create _ _ hok ih => exact Reachable.create ih hok
  | update _ hok ih => exact Reachable.update ih hok

theorem uls_create {s s' : Store} {r : Revision} {ts : Option String}
    {t b : String} {a : Option String}
    (hU : UniqueLatestSlugs s.revisions)
    (hguard : ∀ t', ts = some t' → t' ≠ "" → t' ≠ slugify t)
    (h : create_article s ts t b a = .ok (s', r)) :
    UniqueLatestSlugs s'.revisions := by
  obtain ⟨ht, hrevs, hnext⟩ := create_article_ok h
  have hslug : (createdRev s ts t b a).slug = "" ∨
      slugInUse s.revisions s.next_article_id (createdRev s ts t b a).slug
        = false := by
    show decide_slug s.revisions s.next_article_id "" t ts = "" ∨
      slugInUse s.revisions s.next_article_id
        (decide_slug s.revisions s.next_article_id "" t ts) = false
    cases ts with
    | none =>
      right
      rw [decide_slug_none]
      obtain ⟨K, -, heq, hfree, -⟩ :=
        slugFresh_spec s.revisions s.next_article_id (slugify t)
      rw [heq]
      exact hfree
    | some p =>
      by_cases hp : p = ""
      · left
        subst hp
        simp [decide_slug]
      · right
        have h2 : ¬ slugify t = p := fun he => hguard p rfl hp he.symm
        rw [decide_slug_some, if_neg hp, if_neg ht, if_neg h2]
        obtain ⟨K, -, heq, hfree, -⟩ :=
          slugFresh_spec s.revisions s.next_article_id (slugify t)
        rw [heq]
        exact hfree
  intro r₁ h₁ r₂ h₂ hl₁ hl₂ hne hslugeq
  rw [hrevs, List.mem_append] at h₁ h₂
  rcases h₁ with h₁ | h₁ <;> rcases h₂ with h₂ | h₂
  · exact hU r₁ h₁ r₂ h₂ hl₁ hl₂ hne hslugeq
  · have hr₂ : r₂ = createdRev s ts t b a := by simpa using h₂
    subst hr₂
    rcases hslug with hempty | hfree
    · rw [hslugeq, hempty]
    · exfalso
      rw [slugInUse, List.any_eq_false] at hfree
      apply hfree r₁ h₁
      have hid : r₁.article_id ≠ s.next_article_id := hne
      simp [hid, hslugeq, hl₁]
  · have hr₁ : r₁ = createdRev s ts t b a := by simpa using h₁
    subst hr₁
    rcases hslug with hempty | hfree
    · exact hempty
    · exfalso
      rw [slugInUse, List.any_eq_false] at hfree
      apply hfree r₂ h₂
      have hid : r₂.article_id ≠ s.next_article_id := fun he => hne he.symm
      simp [hid, ← hslugeq, hl₂]
  · exfalso
    have hr₁ : r₁ = createdRev s ts t b a := by simpa using h₁
    have hr₂ : r₂ = createdRev s ts t b a := by simpa using h₂
    exact hne (by rw [hr₁, hr₂])

theorem uls_update {s s' : Store} {r : Revision} {aid base : Int}
    {t b : String} {a : Option String} (hInv : Inv s)
    (hU : UniqueLatestSlugs s.revisions)
    (h : update_article s aid base t b a = .ok (s', r)) :
    UniqueLatestSlugs s'.revisions := by
  obtain ⟨m, ht, hmax, hbase, hrevs, hnext⟩ := update_article_ok h
  obtain ⟨init, hdec, hinitrev, hinitlat, hmrev, hmlat⟩ :=
    maxRevRow_is_last hInv hmax
  obtain ⟨hmrevs, haid, -⟩ := maxRevRow_facts hmax
  have hslug : (updatedRev s aid m t b a).slug = "" ∨
      (updatedRev s aid m t b a).slug = m.slug ∨
      slugInUse s.revisions aid (updatedRev s aid m t b a).slug = false := by
    show decide_slug s.revisions aid m.title t (some m.slug) = "" ∨
      decide_slug s.revisions aid m.title t (some m.slug) = m.slug ∨
      slugInUse s.revisions aid
        (decide_slug s.revisions aid m.title t (some m.slug)) = false
    by_cases h1 : m.slug = ""
    · left
      rw [decide_slug_some, if_pos h1]
    · by_cases h2 : t = m.title
      · right; left
        rw [decide_slug_some, if_neg h1, if_pos h2]
      · by_cases h3 : slugify t = m.slug
        · right; left
          rw [decide_slug_some, if_neg h1, if_neg h2, if_pos h3, h3]
        · right; right
          rw [decide_slug_some, if_neg h1, if_neg h2, if_neg h3]
          obtain ⟨K, -, heq, hfree, -⟩ :=
            slugFresh_spec s.revisions aid (slugify t)
          rw [heq]
          exact hfree
  intro r₁ h₁ r₂ h₂ hl₁ hl₂ hne hslugeq
  rw [hrevs, List.mem_append] at h₁ h₂
  rcases h₁ with h₁ | h₁ <;> rcases h₂ with h₂ | h₂
  · rw [List.mem_map] at h₁ h₂
    obtain ⟨q₁, hq₁, hf₁⟩ := h₁
    obtain ⟨q₂, hq₂, hf₂⟩ := h₂
    have hlq₁ : q₁.latest = true := latest_of_flipLatest (hf₁ ▸ hl₁)
    have hlq₂ : q₂.latest = true := latest_of_flipLatest (hf₂ ▸ hl₂)
    have hs₁ : r₁.slug = q₁.slug := by rw [← hf₁, flipLatest_slug]
    have hs₂ : r₂.slug = q₂.slug := by rw [← hf₂, flipLatest_slug]
    have hi₁ : r₁.article_id = q₁.article_id := by
      rw [← hf₁, flipLatest_article_id]
    have hi₂ : r₂.article_id = q₂.article_id := by
      rw [← hf₂, flipLatest_article_id]
    rw [hs₁]
    exact hU q₁ hq₁ q₂ hq₂ hlq₁ hlq₂ (hi₁ ▸ hi₂ ▸ hne)
      (hs₁ ▸ hs₂ ▸ hslugeq)
  · have hr₂ : r₂ = updatedRev s aid m t b a := by simpa using h₂
    subst hr₂
    rw [List.mem_map] at h₁
    obtain ⟨q₁, hq₁, hf₁⟩ := h₁
    have hlq₁ : q₁.latest = true := latest_of_flipLatest (hf₁ ▸ hl₁)
    have hs₁ : r₁.slug = q₁.slug := by rw [← hf₁, flipLatest_slug]
    have hi₁ : r₁.article_id = q₁.article_id := by
      rw [← hf₁, flipLatest_article_id]
    have hqa : q₁.article_id ≠ aid := by
      intro he
      apply hne
      show r₁.article_id = aid
      rw [hi₁, he]
    rcases hslug with hempty | hkeep | hfree
    · rw [hslugeq, hempty]
    · rw [hs₁]
      refine hU q₁ hq₁ m hmrevs hlq₁ hmlat
        (fun he => hqa (he.trans haid)) ?_
      rw [← hs₁, hslugeq, hkeep]
    · exfalso
      rw [slugInUse, List.any_eq_false] at hfree
      apply hfree q₁ hq₁
      have hqs : q₁.slug = (updatedRev s aid m t b a).slug := by
        rw [← hs₁, hslugeq]
      simp [hqa, hqs, hlq₁]
  · have hr₁ : r₁ = updatedRev s aid m t b a := by simpa using h₁
    subst hr₁
    rw [List.mem_map] at h₂
    obtain ⟨q₂, hq₂, hf₂⟩ := h₂
    have hlq₂ : q₂.latest = true := latest_of_flipLatest (hf₂ ▸ hl₂)
    have hs₂ : r₂.slug = q₂.slug := by rw [← hf₂, flipLatest_slug]
    have hi₂ : r₂.article_id = q₂.article_id := by
      rw [← hf₂, flipLatest_article_id]
    have hqa : q₂.article_id ≠ aid := by
      intro he
      apply hne
      show aid = r₂.article_id
      rw [hi₂, he]
    rcases hslug with hempty | hkeep | hfree
    · exact hempty
    · rw [hkeep]
      refine hU m hmrevs q₂ hq₂ hmlat hlq₂
        (fun he => hqa (he.symm.trans haid)) ?_
      rw [← hs₂, ← hslugeq, hkeep]
    · exfalso
      rw [slugInUse, List.any_eq_false] at hfree
      apply hfree q₂ hq₂
      have hqs : q₂.slug = (updatedRev s aid m t b a).slug := by
        rw [← hs₂, ← hslugeq]
      simp [hqa, hqs, hlq₂]
  · exfalso
    have hr₁ : r₁ = updatedRev s aid m t b a := by simpa using h₁
    have hr₂ : r₂ = updatedRev s aid m t b a := by simpa using h₂
    exact hne (by rw [hr₁, hr₂])

/-- Every store reachable without a forced target slug equal to the title's
slugification has pairwise distinct non-empty latest slugs. -/
theorem reachableGuarded_unique {s : Store} (h : ReachableGuarded s) :
    UniqueLatestSlugs s.revisions := by
  induction h with
  | empty =>
    intro r₁ h₁
    exact absurd h₁ (by simp [store0])
  | create hs hguard hok ih =>
    exact uls_create ih hguard hok
  | update hs hok ih =>
    exact uls_update (reachable_inv (guarded_reachable hs)) ih hok

/-! ## The row returned by a successful update -/

theorem update_article_ok_rev {s s' : Store} {r : Revision} {aid base : Int}
    {t b : String} {a : Option String}
    (h : update_article s aid base t b a = .ok (s', r)) :
    ∃ m, maxRevRow s.revisions aid = some m ∧ m.revision = base ∧
      r = updatedRev s aid m t b a := by
  by_cases ht : t = ""
  · rw [update_article, if_pos ht] at h
    exact absurd h (by simp)
  · simp only [update_article, if_neg ht] at h
    split at h
    · exact absurd h (by simp)
    · next m hmax =>
      by_cases hbase : m.revision = base
      · rw [if_neg (by simp [hbase])] at h
        rw [← hbase] at h
        have hmle := (maxRevRow_facts hmax).2.2
        have hnone : (s.revisions.map (flipLatest aid m.revision)).find?
            (fun r0 => r0.article_id == aid && r0.revision == m.revision + 1)
            = none := by
          rw [List.find?_eq_none]
          intro x hx
          rw [List.mem_map] at hx
          obtain ⟨q, hq, hflip⟩ := hx
          rw [← hflip]
          simp only [Bool.and_eq_true, beq_iff_eq, flipLatest_article_id,
            flipLatest_revision, not_and]
          intro hqa
          have hmem := mem_articleRows_of hq hqa
          have := hmle q hmem
          omega
        rw [List.find?_append, hnone, Option.none_or,
          List.find?_singleton] at h
        rw [if_pos (by simp)] at h
        dsimp only [] at h
        rw [Except.ok.injEq, Prod.mk.injEq] at h
        exact ⟨m, hmax, hbase, h.2.symm⟩
      · rw [if_pos (by simp [hbase])] at h
        exact absurd h (by simp)

/-! ## Concrete scenario stores -/

/-- First revision of an article titled "foo". -/
def fooRow : Revision :=
  ⟨0, 1, 1, "foo", "foo", "b1", none, true⟩

/-- Store after creating the "foo" article. -/
def fooStore : Store := ⟨[fooRow], 2⟩

theorem create_foo :
    create_article store0 none "foo" "b1" none = .ok (fooStore, fooRow) := by
  rfl

/-- The "foo" revision after its latest flag is flipped off. -/
def fooRowOld : Revision :=
  ⟨0, 1, 1, "foo", "foo", "b1", none, false⟩

/-- Second revision of article 1, renamed to "bar". -/
def barRow : Revision :=
  ⟨1, 1, 2, "bar", "bar", "b2", none, true⟩

/-- Store after renaming "foo" to "bar". -/
def barStore : Store := ⟨[fooRowOld, barRow], 2⟩

theorem update_foo_bar :
    update_article fooStore 1 1 "bar" "b2" none = .ok (barStore, barRow) := by
  rfl

theorem reachable_barStore : Reachable barStore :=
  Reachable.update (Reachable.create Reachable.empty create_foo) update_foo_bar

/-- First "Hello World" article. -/
def hwRow1 : Revision :=
  ⟨0, 1, 1, "hello-world", "Hello World", "b1", none, true⟩

/-- Store after creating the first "Hello World" article. -/
def hwStore1 : Store := ⟨[hwRow1], 2⟩

theorem create_hw1 :
    create_article store0 none "Hello World" "b1" none
      = .ok (hwStore1, hwRow1) := by
  rfl

/-- Second "Hello World" article, disambiguated. -/
def hwRow2 : Revision :=
  ⟨1, 2, 1, "hello-world-2", "Hello World", "b2", none, true⟩

/-- Store after creating the second "Hello World" article. -/
def hwStore2 : Store := ⟨[hwRow1, hwRow2], 3⟩

theorem create_hw2 :
    create_article hwStore1 none "Hello World" "b2" none
      = .ok (hwStore2, hwRow2) := by
  rfl

/-- Second "Hello World" article created with `target_slug = "hello-world"`:
the `base_slug == prev_slug` early return skips disambiguation. -/
def clashRow : Revision :=
  ⟨1, 2, 1, "hello-world", "Hello World", "b2", none, true⟩

/-- Store holding two latest revisions with the same slug. -/
def clashStore : Store := ⟨[hwRow1, clashRow], 3⟩

theorem create_clash :
    create_article hwStore1 (some "hello-world") "Hello World" "b2" none
      = .ok (clashStore, clashRow) := by
  rfl

/-! ## Well-formed quoted FTS literals -/

/-- Scanner for the body of a double-quoted FTS string literal (the part
after the opening quote): quote characters may appear only doubled, and the
literal ends with a single closing quote with nothing after it. -/
def quotedBodyOk : List Char → Bool
  | [] => false
  | c :: rest =>
    if c = '"' then
      match rest with
      | [] => true
      | c2 :: rest2 => if c2 = '"' then quotedBodyOk rest2 else false
    else quotedBodyOk rest

/-- Is `s` a well-formed double-quoted FTS string literal? -/
def isQuotedLiteral (s : String) : Bool :=
  match s.data with
  | [] => false
  | c :: rest => c == '"' && quotedBodyOk rest

theorem quotedBodyOk_replaceQuote (cs : List Char) :
    quotedBodyOk (replaceQuote cs ++ ['"']) = true := by
  induction cs with
  | nil => rfl
  | cons c rest ih =>
    by_cases hc : c = '"'
    · subst hc
      show quotedBodyOk ('"' :: '"' :: (replaceQuote rest ++ ['"'])) = true
      exact ih
    · rw [replaceQuote, if_neg hc]
      show quotedBodyOk (c :: (replaceQuote rest ++ ['"'])) = true
      rw [quotedBodyOk.eq_def]
      dsimp only []
      rw [if_neg hc]
      exact ih

theorem isQuotedLiteral_fts_quote (w : String) :
    isQuotedLiteral (fts_quote w) = true := by
  show ('"' == '"' && quotedBodyOk (replaceQuote w.data ++ ['"'])) = true
  rw [quotedBodyOk_replaceQuote]
  rfl

/-! ## Characterization of `lookup_slug` -/

theorem lookup_slug_spec {s : Store} (hreach : Reachable s) (slug : String) :
    (∃ res, lookup_slug s.revisions slug = .ok res) ∧
    (lookup_slug s.revisions slug = .ok .Miss ↔
      ∀ r ∈ s.revisions, r.slug ≠ slug) ∧
    (∀ aid rev, lookup_slug s.revisions slug = .ok (.Hit aid rev) →
      ∃ r, r ∈ s.revisions ∧ r.slug = slug ∧ r.latest = true ∧
        r.article_id = aid ∧ r.revision = rev ∧
        ∀ r' ∈ s.revisions, r'.slug = slug →
          r'.sequence_number ≤ r.sequence_number) ∧
    (∀ cur, lookup_slug s.revisions slug = .ok (.Redirect cur) →
      ∃ r, r ∈ s.revisions ∧ r.slug = slug ∧ r.latest = false ∧
        (∀ r' ∈ s.revisions, r'.slug = slug →
          r'.sequence_number ≤ r.sequence_number) ∧
        ∃ l, l ∈ s.revisions ∧ l.article_id = r.article_id ∧
          l.latest = true ∧ l.slug = cur) := by
  cases hmax : firstMaxBy (fun r => (r.sequence_number : Int))
      (s.revisions.filter (fun r => r.slug == slug)) with
  | none =>
    have hfilt : s.revisions.filter (fun r => r.slug == slug) = [] :=
      (firstMaxBy_eq_none_iff _ _).mp hmax
    have hmiss : lookup_slug s.revisions slug = .ok .Miss := by
      rw [lookup_slug, hmax]
    refine ⟨⟨.Miss, hmiss⟩, ?_, ?_, ?_⟩
    · refine ⟨fun _ => ?_, fun _ => hmiss⟩
      intro r hr hsl
      have : r ∈ s.revisions.filter (fun r => r.slug == slug) :=
        List.mem_filter.mpr ⟨hr, by simp [hsl]⟩
      rw [hfilt] at this
      exact absurd this (by simp)
    · intro aid rev h'
      rw [hmiss] at h'
      exact absurd h' (by simp)
    · intro cur h'
      rw [hmiss] at h'
      exact absurd h' (by simp)
  | some stub =>
    have hmem0 := firstMaxBy_mem hmax
    have hstubmem : stub ∈ s.revisions ∧ stub.slug = slug := by
      rw [List.mem_filter] at hmem0
      exact ⟨hmem0.1, by simpa using hmem0.2⟩
    have hmaxseq : ∀ r' ∈ s.revisions, r'.slug = slug →
        r'.sequence_number ≤ stub.sequence_number := by
      intro r' hr' hs'
      have hmem' : r' ∈ s.revisions.filter (fun r => r.slug == slug) :=
        List.mem_filter.mpr ⟨hr', by simp [hs']⟩
      have := firstMaxBy_le hmax r' hmem'
      omega
    by_cases hlat : stub.latest = true
    · have hhit : lookup_slug s.revisions slug
          = .ok (.Hit stub.article_id stub.revision) := by
        rw [lookup_slug, hmax]
        dsimp only []
        rw [if_pos hlat]
      refine ⟨⟨_, hhit⟩, ?_, ?_, ?_⟩
      · refine ⟨fun h' => ?_, fun hno => ?_⟩
        · rw [hhit] at h'
          exact absurd h' (by simp)
        · exact absurd hstubmem.2 (hno stub hstubmem.1)
      · intro aid rev h'
        rw [hhit] at h'
        simp only [Except.ok.injEq, SlugLookup.Hit.injEq] at h'
        exact ⟨stub, hstubmem.1, hstubmem.2, hlat, h'.1, h'.2, hmaxseq⟩
      · intro cur h'
        rw [hhit] at h'
        exact absurd h' (by simp)
    · have hlat' : stub.latest = false := by
        revert hlat
        cases stub.latest <;> simp
      have hrows : stub ∈ articleRows s.revisions stub.article_id :=
        mem_articleRows_of hstubmem.1 rfl
      obtain ⟨init, lastR, hdec, -, -, -, hlastlat⟩ :=
        ((reachable_inv hreach).articles stub.article_id).decomp
          (List.ne_nil_of_mem hrows)
      have hlastmem : lastR ∈ s.revisions ∧ lastR.article_id = stub.article_id :=
        mem_articleRows (hdec ▸ List.mem_append_right init (by simp))
      cases hfind : s.revisions.find?
          (fun r => r.latest && r.article_id == stub.article_id) with
      | none =>
        exfalso
        rw [List.find?_eq_none] at hfind
        exact hfind lastR hlastmem.1 (by simp [hlastlat, hlastmem.2])
      | some l =>
        have hl := List.find?_some hfind
        have hlmem := List.mem_of_find?_eq_some hfind
        have hllat : l.latest = true ∧ l.article_id = stub.article_id := by
          simpa using hl
        have hred : lookup_slug s.revisions slug = .ok (.Redirect l.slug) := by
          rw [lookup_slug, hmax]
          dsimp only []
          rw [if_neg (by simp [hlat']), hfind]
        refine ⟨⟨_, hred⟩, ?_, ?_, ?_⟩
        · refine ⟨fun h' => ?_, fun hno => ?_⟩
          · rw [hred] at h'
            exact absurd h' (by simp)
          · exact absurd hstubmem.2 (hno stub hstubmem.1)
        · intro aid rev h'
          rw [hred] at h'
          exact absurd h' (by simp)
        · intro cur h'
          rw [hred] at h'
          simp only [Except.ok.injEq, SlugLookup.Redirect.injEq] at h'
          exact ⟨stub, hstubmem.1, hstubmem.2, hlat', hmaxseq,
            l, hlmem, hllat.2, hllat.1, h'⟩

/-! ## Further scenario rows -/

/-- Second revision of article 1, edited with an unchanged title. -/
def fooSameRow : Revision :=
  ⟨1, 1, 2, "foo", "foo", "b2", none, true⟩

/-- Store after a title-preserving edit of the "foo" article. -/
def fooSameStore : Store := ⟨[fooRowOld, fooSameRow], 2⟩

theorem update_foo_same :
    update_article fooStore 1 1 "foo" "b2" none
      = .ok (fooSameStore, fooSameRow) := by
  rfl

/-- Does a byte sequence contain a `%` that is not followed by two hex
digits (malformed percent-encoding)? -/
def hasMalformedPercent : List Nat → Bool
  | [] => false
  | 37 :: a :: b :: rest =>
    if isHexDigit a && isHexDigit b then hasMalformedPercent rest else true
  | 37 :: _ => true
  | _ :: rest => hasMalformedPercent rest

/-! ## The claims -/

/-- Claim C1, counterexample: the store holding "foo" at revision 1 and "bar"
at revision 2 is reachable, and calling `update_article` on it with the stale
`base_revision = 1` does not fail with a ConflictError carrying the current
latest revision — the source hits `unimplemented!` (state.rs:199), a panic
carrying no revision data, modelled as the `panicUnimplemented` error.  No
ConflictError value exists anywhere in the code. -/
theorem claim_C1_counterexample :
    Reachable barStore ∧
    update_article barStore 1 1 "edit" "body" none
      = .error .panicUnimplemented :=
  ⟨reachable_barStore, by rfl⟩

/-- Claim C1, amended: for every store and every `update_article` call with a
non-empty title on an article whose current greatest revision differs from
`base_revision`, the operation fails by panicking (`unimplemented!`,
state.rs:199, modelled as the `panicUnimplemented` error); it does not
silently overwrite — an `Except.error` result carries no successor store, so
the store is unchanged — but no `ConflictError` carrying the current latest
revision is produced. -/
theorem claim_C1_amended {s : Store} {aid base : Int} {t b : String}
    {a : Option String} {m : Revision} (ht : t ≠ "")
    (hmax : maxRevRow s.revisions aid = some m) (hne : m.revision ≠ base) :
    update_article s aid base t b a = .error .panicUnimplemented := by
  rw [update_article, if_neg ht, hmax]
  dsimp only []
  rw [if_pos (by simp [hne])]

/-- Witness for `claim_C1_amended` at a concrete conflicting edit. -/
theorem claim_C1_witness :
    update_article barStore 1 1 "x" "y" none = .error .panicUnimplemented :=
  claim_C1_amended (by decide) (by rfl) (by decide)

/-- Claim C2: in every reachable store, each article's revision numbers are
exactly the contiguous sequence `1..=N` in insertion order, and whenever the
article has any revision there is exactly one with `latest = true`, whose
revision number equals the revision count `N`. -/
theorem claim_C2 {s : Store} (h : Reachable s) (aid : Int) :
    (articleRows s.revisions aid).map (fun r => r.revision) =
      (List.range' 1 (articleRows s.revisions aid).length).map
        (fun (n : Nat) => (n : Int)) ∧
    (articleRows s.revisions aid ≠ [] →
      ∃ r, r ∈ articleRows s.revisions aid ∧ r.latest = true ∧
        r.revision = (((articleRows s.revisions aid).length : Nat) : Int) ∧
        ∀ r', r' ∈ articleRows s.revisions aid → r'.latest = true → r' = r) := by
  have hInv := reachable_inv h
  refine ⟨(hInv.articles aid).1, ?_⟩
  intro hne
  obtain ⟨init, lastR, hdec, hinitrev, hinitlat, hlastrev, hlastlat⟩ :=
    (hInv.articles aid).decomp hne
  refine ⟨lastR, hdec ▸ List.mem_append_right init (by simp), hlastlat, ?_, ?_⟩
  · rw [hdec, hlastrev]
    simp
  · intro r' hr' hl'
    rw [hdec, List.mem_append] at hr'
    rcases hr' with h1 | h1
    · exfalso
      have hmem : r'.latest ∈ init.map (fun r => r.latest) :=
        List.mem_map.mpr ⟨r', h1, rfl⟩
      rw [hinitlat] at hmem
      have := List.eq_of_mem_replicate hmem
      rw [hl'] at this
      exact absurd this (by simp)
    · simpa using h1

/-- Witness for `claim_C2` on the reachable two-revision store. -/
theorem claim_C2_witness :
    (articleRows barStore.revisions 1).map (fun r => r.revision) =
      (List.range' 1 (articleRows barStore.revisions 1).length).map
        (fun (n : Nat) => (n : Int)) ∧
    articleRows barStore.revisions 1 ≠ [] :=
  ⟨(claim_C2 reachable_barStore 1).1, by decide⟩

/-- Claim C3, counterexample: from the empty store, create "Hello World"
(slug `hello-world`), then create a second "Hello World" passing
`target_slug = some "hello-world"`.  Because `decide_slug` returns early when
`base_slug == prev_slug` (state.rs:55-57) without the in-use check, the
resulting reachable store has two latest revisions of distinct articles
sharing the non-empty slug `"hello-world"` — the claimed invariant fails for
this choice of `target_slug`. -/
theorem claim_C3_counterexample :
    Reachable clashStore ∧ ¬ UniqueLatestSlugs clashStore.revisions :=
  ⟨Reachable.create (Reachable.create Reachable.empty create_hw1) create_clash,
    fun hU => absurd (hU hwRow1 (by decide) clashRow (by decide) (by decide)
      (by decide) (by decide) (by decide)) (by decide)⟩

/-- Claim C3, amended: after every sequence of successful
`create_article`/`update_article` calls starting from the empty store in
which no `create_article` call passes a non-empty `target_slug` equal to the
slugification of its title, any two latest revisions of distinct articles
have different slugs whenever non-empty. -/
theorem claim_C3_amended {s : Store} (h : ReachableGuarded s) :
    UniqueLatestSlugs s.revisions :=
  reachableGuarded_unique h

/-- Witness for `claim_C3_amended` on the disambiguated two-article store. -/
theorem claim_C3_witness : UniqueLatestSlugs hwStore2.revisions :=
  claim_C3_amended
    (ReachableGuarded.create
      (ReachableGuarded.create ReachableGuarded.empty
        (fun _ h => absurd h (by simp)) create_hw1)
      (fun _ h => absurd h (by simp)) create_hw2)

/-- Claim C4: on every reachable store, `lookup_slug` succeeds and selects the
revision row holding the slug with the greatest sequence number: `Miss`
exactly when no row ever held the slug, `Hit` with that row's article id and
revision when the row is latest, and otherwise `Redirect` with the same
article's current latest slug.  Concretely, after creating "foo" and renaming
it to "bar", `lookup_slug "foo"` redirects to `"bar"` and
`lookup_slug "bar"` is a hit. -/
theorem claim_C4 :
    (∀ (s : Store) (slug : String), Reachable s →
      (∃ res, lookup_slug s.revisions slug = .ok res) ∧
      (lookup_slug s.revisions slug = .ok .Miss ↔
        ∀ r ∈ s.revisions, r.slug ≠ slug) ∧
      (∀ aid rev, lookup_slug s.revisions slug = .ok (.Hit aid rev) →
        ∃ r, r ∈ s.revisions ∧ r.slug = slug ∧ r.latest = true ∧
          r.article_id = aid ∧ r.revision = rev ∧
          ∀ r' ∈ s.revisions, r'.slug = slug →
            r'.sequence_number ≤ r.sequence_number) ∧
      (∀ cur, lookup_slug s.revisions slug = .ok (.Redirect cur) →
        ∃ r, r ∈ s.revisions ∧ r.slug = slug ∧ r.latest = false ∧
          (∀ r' ∈ s.revisions, r'.slug = slug →
            r'.sequence_number ≤ r.sequence_number) ∧
          ∃ l, l ∈ s.revisions ∧ l.article_id = r.article_id ∧
            l.latest = true ∧ l.slug = cur)) ∧
    lookup_slug barStore.revisions "foo" = .ok (.Redirect "bar") ∧
    lookup_slug barStore.revisions "bar" = .ok (.Hit 1 2) :=
  ⟨fun _ slug h => lookup_slug_spec h slug, by rfl, by rfl⟩

/-- Witness for the quantified part of `claim_C4` at a concrete store. -/
theorem claim_C4_witness :
    ∃ res, lookup_slug barStore.revisions "foo" = .ok res :=
  (claim_C4.1 barStore "foo" reachable_barStore).1

/-- Claim C5: `decide_slug` never returns an empty slug unless the caller
passes the front-page sentinel (`prev_slug = some ""`); on creation
(`prev_title = ""`, `prev_slug = none`) it returns the first free candidate
among `base`, `base-2`, `base-3`, …, where the base is the slugification of
the title, or the literal `"article"` when that is empty, and a candidate is
free when no other article's latest revision holds it.  Concretely, two
articles created with title "Hello World" receive `hello-world` and
`hello-world-2`. -/
theorem claim_C5 :
    (∀ (revs : List Revision) (aid : Int) (prev_title title : String)
        (ps : Option String), ps ≠ some "" →
        decide_slug revs aid prev_title title ps ≠ "") ∧
    (∀ (revs : List Revision) (aid : Int) (title : String),
      ∃ K, 1 ≤ K ∧
        decide_slug revs aid "" title none =
          candidate (if slugify title = "" then "article" else slugify title)
            K ∧
        slugInUse revs aid
          (candidate (if slugify title = "" then "article" else slugify title)
            K) = false ∧
        ∀ j, 1 ≤ j → j < K →
          slugInUse revs aid
            (candidate
              (if slugify title = "" then "article" else slugify title) j)
            = true) ∧
    create_article store0 none "Hello World" "b1" none
      = .ok (hwStore1, hwRow1) ∧
    create_article hwStore1 none "Hello World" "b2" none
      = .ok (hwStore2, hwRow2) ∧
    hwRow1.slug = "hello-world" ∧ hwRow2.slug = "hello-world-2" := by
  refine ⟨fun revs aid pt t ps h => decide_slug_ne_empty revs aid pt t ps h,
    ?_, create_hw1, create_hw2, rfl, rfl⟩
  intro revs aid title
  rw [decide_slug_none]
  exact slugFresh_spec revs aid (slugify title)

/-- Witness for `claim_C5` on a store that forces disambiguation. -/
theorem claim_C5_witness :
    decide_slug hwStore1.revisions 2 "" "Hello World" none ≠ "" ∧
    decide_slug hwStore1.revisions 2 "" "Hello World" none
      = "hello-world-2" :=
  ⟨claim_C5.1 hwStore1.revisions 2 "" "Hello World" none (by decide), by rfl⟩

/-- Claim C6: a successful `update_article` whose title equals the previous
maximal revision's title returns a revision whose slug is exactly the
previous slug, whatever the stored slug is. -/
theorem claim_C6 {s s' : Store} {r m : Revision} {aid base : Int}
    {t b : String} {a : Option String}
    (hmax : maxRevRow s.revisions aid = some m) (htitle : t = m.title)
    (hok : update_article s aid base t b a = .ok (s', r)) :
    r.slug = m.slug := by
  obtain ⟨m', hmax', hbase', hr⟩ := update_article_ok_rev hok
  rw [hmax] at hmax'
  obtain rfl : m = m' := Option.some_inj.mp hmax'
  rw [hr]
  show decide_slug s.revisions aid m.title t (some m.slug) = m.slug
  rw [decide_slug_some]
  by_cases h1 : m.slug = ""
  · rw [if_pos h1, h1]
  · rw [if_neg h1, if_pos htitle]

/-- Witness for `claim_C6`: a title-preserving edit of the "foo" article
keeps the slug `"foo"`. -/
theorem claim_C6_witness : fooSameRow.slug = fooRow.slug :=
  claim_C6 (by rfl) (by rfl) update_foo_same

/-- Claim C7: `search_query` splits the query string on whitespace and wraps
each token in double quotes with embedded quotes doubled; zero tokens yield
the empty-phrase query `""`, one token yields the prefix query `token*`,
several yield `NEAR(tok1 tok2 …)`, and every quoted token is a well-formed
quoted literal, so a literal quote character in the query never breaks the
query syntax. -/
theorem claim_C7 (qs : String) :
    (splitWhitespace qs = [] → search_query_string qs = "\"\"") ∧
    (∀ w, splitWhitespace qs = [w] →
      search_query_string qs = fts_quote w ++ "*") ∧
    (2 ≤ (splitWhitespace qs).length →
      search_query_string qs =
        "NEAR(" ++ String.intercalate " "
          ((splitWhitespace qs).map fts_quote) ++ ")") ∧
    (∀ w ∈ splitWhitespace qs, isQuotedLiteral (fts_quote w) = true) := by
  refine ⟨?_, ?_, ?_, fun w _ => isQuotedLiteral_fts_quote w⟩
  · intro h
    simp [search_query_string, h]
  · intro w h
    simp [search_query_string, h]
  · intro h
    have hlen : ((splitWhitespace qs).map fts_quote).length > 1 := by
      rw [List.length_map]
      omega
    simp only [search_query_string, if_pos hlen]

/-- Witness for `claim_C7` on the spec's example query containing a literal
quote character. -/
theorem claim_C7_witness :
    splitWhitespace "a \"b" = ["a", "\"b"] ∧
    search_query_string "a \"b" = "NEAR(\"a\" \"\"\"b\")" ∧
    isQuotedLiteral (fts_quote "\"b") = true :=
  ⟨by rfl, by rfl, (claim_C7 "a \"b").2.2.2 "\"b" (by decide)⟩

/-- Claim C8: for every store and every single-segment article path whose
percent-decoded segment differs from its own slugification, `article_lookup`
returns a redirect resource to the canonical slug — independent of the store
contents, so the article store is never consulted — and never a direct
article hit. -/
theorem claim_C8 (s : Store) (path : String) (query : Option String)
    (seg : String) (hsplit : splitOne path = .ok (seg, none))
    (hslug : slugify seg ≠ seg) :
    articleLookup s path query
      = .ok (some (.articleRedirect (slugify seg))) ∧
    ∀ aid rev e, articleLookup s path query
      ≠ .ok (some (.article aid rev e)) := by
  have hmain : articleLookup s path query
      = .ok (some (.articleRedirect (slugify seg))) := by
    rw [articleLookup, hsplit]
    dsimp only []
    rw [if_pos hslug]
  refine ⟨hmain, fun aid rev e h => ?_⟩
  rw [hmain] at h
  exact absurd h (by simp)

/-- Witness for `claim_C8` on the spec's example path `Hello World`. -/
theorem claim_C8_witness :
    articleLookup store0 "Hello World" none
      = .ok (some (.articleRedirect "hello-world")) :=
  (claim_C8 store0 "Hello World" none "Hello World" (by rfl) (by decide)).1

/-- Claim C9, counterexample: the segment `%zz` contains malformed
percent-encoding, yet the dispatcher does not fail with a decode error:
`percent_decode` passes the malformed sequence through verbatim, and the
lookup succeeds with a redirect resource. -/
theorem claim_C9_counterexample :
    hasMalformedPercent (utf8Encode "%zz".data) = true ∧
    articleLookup store0 "%zz" none = .ok (some (.articleRedirect "zz")) :=
  ⟨by rfl, by rfl⟩

/-- Claim C9, amended: the dispatcher's lookup fails with a decode error
exactly for segments whose percent-decoded byte sequence is not valid UTF-8
(a request-level failure, not a not-found result); malformed `%` sequences
themselves are passed through verbatim by `percent_decode` and do not fail. -/
theorem claim_C9_amended (s : Store) (path : String) (query : Option String) :
    articleLookup s path query = .error .decodeError ↔
      utf8Decode (percentDecode (utf8Encode (splitRaw path).1.data))
        = none := by
  constructor
  · intro h
    cases hcs : utf8Decode (percentDecode (utf8Encode (splitRaw path).1.data))
      with
    | none => rfl
    | some cs =>
      exfalso
      have hdec : percentDecodeUtf8 (splitRaw path).1 = some (String.mk cs) :=
        by rw [percentDecodeUtf8, hcs]; rfl
      cases htail : (splitRaw path).2 with
      | some tl =>
        have hsplit : splitOne path = .ok (String.mk cs, some tl) := by
          rw [splitOne, hdec, htail]
        rw [articleLookup, hsplit] at h
        dsimp only [] at h
        exact absurd h (by simp)
      | none =>
        have hsplit : splitOne path = .ok (String.mk cs, none) := by
          rw [splitOne, hdec, htail]
        rw [articleLookup, hsplit] at h
        dsimp only [] at h
        by_cases hsl : slugify (String.mk cs) ≠ String.mk cs
        · rw [if_pos hsl] at h
          exact absurd h (by simp)
        · rw [if_neg hsl] at h
          cases hls : lookup_slug s.revisions (String.mk cs) with
          | error e =>
            rw [hls] at h
            dsimp only [] at h
            exact absurd h (by simp)
          | ok res =>
            rw [hls] at h
            cases res with
            | Miss =>
              dsimp only [] at h
              exact absurd h (by simp)
            | Hit aid rev =>
              dsimp only [] at h
              exact absurd h (by simp)
            | Redirect sl =>
              dsimp only [] at h
              exact absurd h (by simp)
  · intro hbad
    have hsplit : splitOne path = .error () := by
      rw [splitOne,
        show percentDecodeUtf8 (splitRaw path).1 = none from by
          rw [percentDecodeUtf8, hbad]; rfl]
    rw [articleLookup, hsplit]

/-- Witness for `claim_C9_amended`, exercising both directions: `%FF`
decodes to the byte 255, which is not valid UTF-8, and fails; `%zz`, whose
malformed `%` passes through verbatim as valid UTF-8, does not fail. -/
theorem claim_C9_witness :
    articleLookup store0 "%FF" none = .error .decodeError ∧
    articleLookup store0 "%zz" none ≠ .error .decodeError :=
  ⟨(claim_C9_amended store0 "%FF" none).mpr (by rfl),
    fun h => absurd ((claim_C9_amended store0 "%zz" none).mp h) (by decide)⟩

/-- Claim C10: `WikiLookup::lookup` asserts that its path starts with `/`: for
every path that does not, the call panics rather than returning a not-found
result or an error; for every path that does, the assertion is unreachable
and the call dispatches on whether the remainder begins with `_`. -/
theorem claim_C10 (s : Store) (path : String) (query : Option String) :
    (strStartsWith path "/" = false → wikiLookup s path query = .panicked ∧
      ∀ res, wikiLookup s path query ≠ .returned res) ∧
    (strStartsWith path "/" = true → wikiLookup s path query =
      (if strStartsWith (path.drop 1) "_" then
        .returned (reservedLookup s (path.drop 1) query)
      else .returned (articleLookup s (path.drop 1) query))) := by
  constructor
  · intro h
    have hp : wikiLookup s path query = .panicked := by
      rw [wikiLookup, if_neg (by simp [h])]
    refine ⟨hp, fun res hres => ?_⟩
    rw [hp] at hres
    exact absurd hres (by simp)
  · intro h
    rw [wikiLookup, if_pos h]

/-- Witness for `claim_C10` at a path without and a path with the leading
slash. -/
theorem claim_C10_witness :
    wikiLookup store0 "no-slash" none = .panicked ∧
    wikiLookup store0 "/_new" none
      = .returned (reservedLookup store0 "_new" none) := by
  refine ⟨((claim_C10 store0 "no-slash" none).1 (by rfl)).1, ?_⟩
  have h := (claim_C10 store0 "/_new" none).2 (by rfl)
  rw [h]
  rfl

end Sausagewiki
